import Mathlib

/-!
Verification of the `add` command of the react-native-reusables CLI
(`packages/cli/src/commands/add.ts`).

Strings are embedded as `List Char`.  The JavaScript string methods
`String.prototype.replace` (first occurrence only, literal pattern) and
`String.prototype.replaceAll` (every occurrence, scanning left to right)
are embedded as `replaceFirst` and `replaceAll`, including the ECMA-262
GetSubstitution treatment of the replacement template, which both methods
apply even for a plain string search pattern: a dollar followed by a
second dollar emits one dollar, dollar-ampersand emits the matched text,
dollar-backquote (`Char.ofNat 96`) emits the portion of the subject before
the match, dollar-apostrophe (`Char.ofNat 39`) the portion after it; every
other dollar sequence is literal (a string pattern has no capture groups),
and the produced text is never rescanned.  Both JS methods are only ever
called by the CLI with the fixed non-empty literal patterns appearing in
`fixImports`, so the embeddings fix the behaviour for non-empty patterns
(an empty pattern is treated as matching nowhere; that case is unreachable
from `fixImports`).
-/

namespace RnrAdd

abbrev Str := List Char

/-- ECMA-262 GetSubstitution for a string search pattern (no capture
groups): expands the replacement template `r` given the matched text and
the portions of the subject before and after the match.  `Char.ofNat 96`
is the backquote character and `Char.ofNat 39` the apostrophe character. -/
def getSubst (matched before after : Str) : Str → Str
  | [] => []
  | [c] => [c]
  | c :: d :: rest =>
    if c = '$' then
      if d = '$' then '$' :: getSubst matched before after rest
      else if d = '&' then matched ++ getSubst matched before after rest
      else if d = Char.ofNat 96 then before ++ getSubst matched before after rest
      else if d = Char.ofNat 39 then after ++ getSubst matched before after rest
      else c :: getSubst matched before after (d :: rest)
    else c :: getSubst matched before after (d :: rest)

/-- The replacement template contains no GetSubstitution escape, so it
expands literally in every match context. -/
def noSubB : Str → Bool
  | [] => true
  | [_] => true
  | c :: d :: rest =>
    if c = '$' ∧ (d = '$' ∨ d = '&' ∨ d = Char.ofNat 96 ∨ d = Char.ofNat 39) then false
    else noSubB (d :: rest)

/-- Worker for `replaceFirst`: `pre` is the portion of the original
subject already scanned past, needed as the before-context of
GetSubstitution. -/
def rfGo (p r : Str) : Str → Str → Str
  | _, [] => []
  | pre, c :: rest =>
    if p ≠ [] ∧ p.isPrefixOf (c :: rest) then
      getSubst p pre ((c :: rest).drop p.length) r ++ (c :: rest).drop p.length
    else c :: rfGo p r (pre ++ [c]) rest

/-- JS `rawfile.replace(p, r)` for a literal pattern `p`: substitutes the
expanded replacement for the first (leftmost) occurrence of `p` only; the
produced text is not rescanned. -/
def replaceFirst (p r s : Str) : Str := rfGo p r [] s

/-- Worker for `replaceAll`: scans the text left to right; `pre` is the
portion of the original subject before the current position (the
before-context of GetSubstitution), `skip` counts characters still to be
consumed silently because they belonged to the pattern occurrence that
was just replaced. -/
def raGo (p r : Str) : Str → Str → Nat → Str
  | _, [], _ => []
  | pre, c :: rest, skip + 1 => raGo p r (pre ++ [c]) rest skip
  | pre, c :: rest, 0 =>
    if p.isPrefixOf (c :: rest) then
      getSubst p pre ((c :: rest).drop p.length) r ++
        raGo p r (pre ++ [c]) rest (p.length - 1)
    else c :: raGo p r (pre ++ [c]) rest 0

/-- JS `rawfile.replaceAll(p, r)` for a literal non-empty pattern `p`:
substitutes the expanded replacement for every occurrence, scanning left
to right, without rescanning the produced text. -/
def replaceAll (p r s : Str) : Str :=
  if p = [] then s else raGo p r [] s 0

/-- The import rewriter of the CLI, `fixImports(rawfile, componentsAlias,
libAlias)` from `add.ts`: chains the three single-occurrence `replace`
calls and the three all-occurrence `replaceAll` calls, in source order. -/
def fixImports (rawfile componentsAlias libAlias : Str) : Str :=
  replaceAll "@rnr".data (componentsAlias ++ "/primitives".data)
    (replaceAll "../../lib".data libAlias
      (replaceAll "../../components".data componentsAlias
        (replaceFirst "./text".data (componentsAlias ++ "/ui/text".data)
          (replaceFirst "./typography".data (componentsAlias ++ "/ui/typography".data)
            (replaceFirst "../Icons".data (componentsAlias ++ "/Icons".data) rawfile)))))

/-- The three patterns rewritten with single-occurrence `replace`, paired
with their replacements (as functions of the components alias), in the
order they are applied by `fixImports`. -/
def singleSubs (componentsAlias : Str) : List (Str × Str) :=
  [("../Icons".data, componentsAlias ++ "/Icons".data),
   ("./typography".data, componentsAlias ++ "/ui/typography".data),
   ("./text".data, componentsAlias ++ "/ui/text".data)]

/-- The three directory-style patterns rewritten with `replaceAll`. -/
def dirPatterns : List Str :=
  ["../../components".data, "../../lib".data, "@rnr".data]

/-- All six patterns known to the rewriter, in application order. -/
def rewritePatterns : List Str :=
  ["../Icons".data, "./typography".data, "./text".data] ++ dirPatterns

/-- Number of positions of `s` at which the pattern `p` matches. -/
def occCount (p s : Str) : Nat :=
  (List.range (s.length + 1)).countP (fun i => p.isPrefixOf (s.drop i))

/-! ### Basic facts about the embedded string operations -/

theorem infixOfPre {α : Type} {l₁ l₂ : List α} (h : l₁ <+: l₂) : l₁ <:+: l₂ := by
  obtain ⟨t, rfl⟩ := h
  exact ⟨[], t, rfl⟩

theorem infixOfSuf {α : Type} {l₁ l₂ : List α} (h : l₁ <:+ l₂) : l₁ <:+: l₂ := by
  obtain ⟨t, rfl⟩ := h
  exact ⟨t, [], by simp⟩

theorem getSubst_lit (m b a : Str) :
    ∀ {r : Str}, noSubB r = true → getSubst m b a r = r
  | [], _ => rfl
  | [_], _ => rfl
  | c :: d :: rest, h => by
    have hsplit : ¬ (c = '$' ∧ (d = '$' ∨ d = '&' ∨ d = Char.ofNat 96 ∨ d = Char.ofNat 39)) := by
      intro hcd
      rw [show noSubB (c :: d :: rest) = false by
            show (if c = '$' ∧ (d = '$' ∨ d = '&' ∨ d = Char.ofNat 96 ∨ d = Char.ofNat 39)
                  then false else noSubB (d :: rest)) = false
            rw [if_pos hcd]] at h
      exact Bool.false_ne_true h
    have h2 : noSubB (d :: rest) = true := by
      rw [show noSubB (c :: d :: rest) = noSubB (d :: rest) by
            show (if c = '$' ∧ (d = '$' ∨ d = '&' ∨ d = Char.ofNat 96 ∨ d = Char.ofNat 39)
                  then false else noSubB (d :: rest)) = noSubB (d :: rest)
            rw [if_neg hsplit]] at h
      exact h
    by_cases hc : c = '$'
    · have hd1 : ¬ d = '$' := fun hh => hsplit ⟨hc, Or.inl hh⟩
      have hd2 : ¬ d = '&' := fun hh => hsplit ⟨hc, Or.inr (Or.inl hh)⟩
      have hd3 : ¬ d = Char.ofNat 96 := fun hh => hsplit ⟨hc, Or.inr (Or.inr (Or.inl hh))⟩
      have hd4 : ¬ d = Char.ofNat 39 := fun hh => hsplit ⟨hc, Or.inr (Or.inr (Or.inr hh))⟩
      show (if c = '$' then
              if d = '$' then '$' :: getSubst m b a rest
              else if d = '&' then m ++ getSubst m b a rest
              else if d = Char.ofNat 96 then b ++ getSubst m b a rest
              else if d = Char.ofNat 39 then a ++ getSubst m b a rest
              else c :: getSubst m b a (d :: rest)
            else c :: getSubst m b a (d :: rest)) = c :: d :: rest
      rw [if_pos hc, if_neg hd1, if_neg hd2, if_neg hd3, if_neg hd4,
          getSubst_lit m b a h2]
    · show (if c = '$' then
              if d = '$' then '$' :: getSubst m b a rest
              else if d = '&' then m ++ getSubst m b a rest
              else if d = Char.ofNat 96 then b ++ getSubst m b a rest
              else if d = Char.ofNat 39 then a ++ getSubst m b a rest
              else c :: getSubst m b a (d :: rest)
            else c :: getSubst m b a (d :: rest)) = c :: d :: rest
      rw [if_neg hc, getSubst_lit m b a h2]
  termination_by r => r.length

theorem raGo_pre_irrel {p : Str} (r : Str) (hlit : noSubB r = true) :
    ∀ (s : Str) (k : Nat) (pre pre' : Str), raGo p r pre s k = raGo p r pre' s k
  | [], _, _, _ => rfl
  | c :: rest, k + 1, pre, pre' => raGo_pre_irrel r hlit rest k (pre ++ [c]) (pre' ++ [c])
  | c :: rest, 0, pre, pre' => by
    by_cases hm : p.isPrefixOf (c :: rest) = true
    · show (if p.isPrefixOf (c :: rest) = true then
              getSubst p pre ((c :: rest).drop p.length) r ++
                raGo p r (pre ++ [c]) rest (p.length - 1)
            else c :: raGo p r (pre ++ [c]) rest 0) = _
      rw [if_pos hm]
      show _ = (if p.isPrefixOf (c :: rest) = true then
              getSubst p pre' ((c :: rest).drop p.length) r ++
                raGo p r (pre' ++ [c]) rest (p.length - 1)
            else c :: raGo p r (pre' ++ [c]) rest 0)
      rw [if_pos hm, getSubst_lit p pre ((c :: rest).drop p.length) hlit,
          getSubst_lit p pre' ((c :: rest).drop p.length) hlit,
          raGo_pre_irrel r hlit rest (p.length - 1) (pre ++ [c]) (pre' ++ [c])]
    · show (if p.isPrefixOf (c :: rest) = true then _ else c :: raGo p r (pre ++ [c]) rest 0) = _
      rw [if_neg hm]
      show _ = (if p.isPrefixOf (c :: rest) = true then _
                else c :: raGo p r (pre' ++ [c]) rest 0)
      rw [if_neg hm, raGo_pre_irrel r hlit rest 0 (pre ++ [c]) (pre' ++ [c])]

theorem raGo_skip {p : Str} (r : Str) (hlit : noSubB r = true) :
    ∀ (k : Nat) (s : Str) (pre : Str), raGo p r pre s k = raGo p r [] (s.drop k) 0
  | 0, s, pre => by
    cases s with
    | nil => rfl
    | cons c rest => exact raGo_pre_irrel r hlit (c :: rest) 0 pre []
  | k + 1, [], _ => by simp [raGo]
  | k + 1, c :: rest, pre => by
    simpa using raGo_skip r hlit k rest (pre ++ [c])

theorem replaceAll_nil (p r : Str) : replaceAll p r [] = [] := by
  unfold replaceAll
  cases p <;> simp [raGo]

theorem replaceAll_cons_pos {p : Str} (r : Str) {c : Char} {rest : Str}
    (hp : p ≠ []) (hlit : noSubB r = true) (h : p <+: (c :: rest)) :
    replaceAll p r (c :: rest) = r ++ replaceAll p r ((c :: rest).drop p.length) := by
  obtain ⟨a, p', rfl⟩ : ∃ a p', p = a :: p' := by
    cases p with
    | nil => exact absurd rfl hp
    | cons a p' => exact ⟨a, p', rfl⟩
  have hb : (a :: p').isPrefixOf (c :: rest) = true := List.isPrefixOf_iff_prefix.mpr h
  simp only [replaceAll, if_neg (List.cons_ne_nil a p')]
  have hstep : raGo (a :: p') r [] (c :: rest) 0 =
      getSubst (a :: p') [] (rest.drop p'.length) r ++
        raGo (a :: p') r [c] rest p'.length := by
    simp [raGo, hb]
  rw [hstep, getSubst_lit _ _ _ hlit, raGo_skip r hlit]
  simp

theorem replaceAll_cons_neg {p : Str} (r : Str) {c : Char} {rest : Str}
    (hp : p ≠ []) (hlit : noSubB r = true) (h : ¬ p <+: (c :: rest)) :
    replaceAll p r (c :: rest) = c :: replaceAll p r rest := by
  have hb : (p.isPrefixOf (c :: rest)) = false := by
    rw [← Bool.not_eq_true, List.isPrefixOf_iff_prefix]
    exact h
  simp only [replaceAll, if_neg hp]
  have hstep : raGo p r [] (c :: rest) 0 = c :: raGo p r [c] rest 0 := by
    simp [raGo, hb]
  rw [hstep, raGo_pre_irrel r hlit rest 0 [c] []]

theorem rfGo_id {p : Str} (r : Str) :
    ∀ {s : Str}, ¬ p <:+: s → ∀ pre, rfGo p r pre s = s
  | [], _, _ => rfl
  | c :: rest, h, pre => by
    have hpre : ¬ p <+: (c :: rest) := fun hp => h (infixOfPre hp)
    have hrest : ¬ p <:+: rest := fun hi => h (List.infix_cons_iff.mpr (Or.inr hi))
    have hb : ¬ (p ≠ [] ∧ p.isPrefixOf (c :: rest) = true) := by
      rintro ⟨-, hb⟩
      have hb2 := List.isPrefixOf_iff_prefix.mp hb
      exact hpre hb2
    show (if p ≠ [] ∧ p.isPrefixOf (c :: rest) = true then _
          else c :: rfGo p r (pre ++ [c]) rest) = c :: rest
    rw [if_neg hb, rfGo_id r hrest (pre ++ [c])]

theorem replaceFirstId {p : Str} (r : Str) {s : Str} (h : ¬ p <:+: s) :
    replaceFirst p r s = s := rfGo_id r h []

theorem raGo_id {p : Str} (r : Str) :
    ∀ {s : Str}, ¬ p <:+: s → ∀ pre, raGo p r pre s 0 = s
  | [], _, _ => rfl
  | c :: rest, h, pre => by
    have hpre : ¬ p <+: (c :: rest) := fun hq => h (infixOfPre hq)
    have hrest : ¬ p <:+: rest := fun hi => h (List.infix_cons_iff.mpr (Or.inr hi))
    have hb : (p.isPrefixOf (c :: rest)) = false := by
      rw [← Bool.not_eq_true, List.isPrefixOf_iff_prefix]
      exact hpre
    have hstep : raGo p r pre (c :: rest) 0 = c :: raGo p r (pre ++ [c]) rest 0 := by
      simp [raGo, hb]
    rw [hstep, raGo_id r hrest (pre ++ [c])]

theorem replaceAllId {p : Str} (r : Str) {s : Str} (h : ¬ p <:+: s) :
    replaceAll p r s = s := by
  by_cases hp : p = []
  · simp [replaceAll, hp]
  · simp only [replaceAll, if_neg hp]
    exact raGo_id r h []

theorem rfGo_first_occ {p : Str} (r : Str) (hp : p ≠ []) (hlit : noSubB r = true) :
    ∀ (u : Str) {v : Str} (pre : Str),
      (∀ i, i < u.length → ¬ p <+: ((u ++ p ++ v).drop i)) →
      rfGo p r pre (u ++ p ++ v) = u ++ r ++ v
  | [], v, pre, _ => by
    obtain ⟨a, p', rfl⟩ : ∃ a p', p = a :: p' := by
      cases p with
      | nil => exact absurd rfl hp
      | cons a p' => exact ⟨a, p', rfl⟩
    have hb : (a :: p').isPrefixOf ((a :: p') ++ v) = true :=
      List.isPrefixOf_iff_prefix.mpr (List.prefix_append _ _)
    have hstep : rfGo (a :: p') r pre ((a :: p') ++ v) =
        getSubst (a :: p') pre v r ++ v := by
      have hv : ((a :: p') ++ v).drop (a :: p').length = v := List.drop_left _ _
      show (if (a :: p') ≠ [] ∧ (a :: p').isPrefixOf (a :: (p' ++ v)) = true then
              getSubst (a :: p') pre ((a :: (p' ++ v)).drop (a :: p').length) r ++
                (a :: (p' ++ v)).drop (a :: p').length
            else a :: rfGo (a :: p') r (pre ++ [a]) (p' ++ v)) = _
      rw [if_pos ⟨List.cons_ne_nil a p', by simp [hb]⟩,
          show (a :: (p' ++ v)).drop (a :: p').length = v by simp [hv]]
    simp only [List.nil_append]
    rw [hstep, getSubst_lit _ _ _ hlit]
  | c :: u', v, pre, hfirst => by
    have h0 : ¬ p <+: (c :: (u' ++ p ++ v)) := by
      have h := hfirst 0 (by simp)
      simpa using h
    have hb : ¬ (p ≠ [] ∧ p.isPrefixOf (c :: (u' ++ p ++ v)) = true) := by
      rintro ⟨-, hb⟩
      have hb2 := List.isPrefixOf_iff_prefix.mp hb
      exact h0 hb2
    have hrec := rfGo_first_occ (p := p) r hp hlit u' (v := v) (pre ++ [c])
      (fun i hi => by
        have h := hfirst (i + 1) (by simpa using Nat.succ_lt_succ hi)
        simpa using h)
    have hassoc : (c :: u') ++ p ++ v = c :: (u' ++ p ++ v) := by simp
    rw [hassoc]
    show (if p ≠ [] ∧ p.isPrefixOf (c :: (u' ++ p ++ v)) = true then
            getSubst p pre ((c :: (u' ++ p ++ v)).drop p.length) r ++
              (c :: (u' ++ p ++ v)).drop p.length
          else c :: rfGo p r (pre ++ [c]) (u' ++ p ++ v)) = (c :: u') ++ r ++ v
    rw [if_neg hb, hrec]
    simp

theorem replaceFirst_first_occ {p : Str} (r : Str) (hp : p ≠ [])
    (hlit : noSubB r = true) (u : Str) {v : Str}
    (hfirst : ∀ i, i < u.length → ¬ p <+: ((u ++ p ++ v).drop i)) :
    replaceFirst p r (u ++ p ++ v) = u ++ r ++ v :=
  rfGo_first_occ r hp hlit u [] hfirst

/-! ### Decomposition of prefixes and infixes of an append -/

theorem prefix_append_cases {α : Type} {t v : List α} :
    ∀ {u : List α}, t <+: u ++ v → t <+: u ∨ ∃ w, t = u ++ w ∧ w <+: v := by
  intro u
  induction u generalizing t with
  | nil => intro h; exact Or.inr ⟨t, by simp, by simpa using h⟩
  | cons a u' ih =>
    intro h
    rcases List.prefix_cons_iff.mp (by simpa using h) with rfl | ⟨t', rfl, ht'⟩
    · exact Or.inl List.nil_prefix
    · rcases ih ht' with h' | ⟨w, rfl, hw⟩
      · exact Or.inl (List.cons_prefix_cons.mpr ⟨rfl, h'⟩)
      · exact Or.inr ⟨w, by simp, hw⟩

theorem infix_append_cases {α : Type} {p v : List α} :
    ∀ {u : List α}, p <:+: u ++ v →
      p <:+: u ∨ p <:+: v ∨
        ∃ a b, p = a ++ b ∧ a ≠ [] ∧ b ≠ [] ∧ a <:+ u ∧ b <+: v := by
  intro u
  induction u generalizing p with
  | nil => intro h; exact Or.inr (Or.inl (by simpa using h))
  | cons x u' ih =>
    intro h
    rcases List.infix_cons_iff.mp (by simpa using h) with hpre | hrest
    · rcases prefix_append_cases (u := x :: u') (by simpa using hpre) with h' | ⟨w, rfl, hw⟩
      · exact Or.inl (infixOfPre h')
      · rcases eq_or_ne w [] with rfl | hwne
        · exact Or.inl (by simp [List.infix_refl])
        · exact Or.inr (Or.inr ⟨x :: u', w, rfl, by simp, hwne, List.suffix_refl _, hw⟩)
    · rcases ih hrest with h' | h' | ⟨a, b, rfl, ha, hb, hsuf, hpre⟩
      · exact Or.inl (List.infix_cons h')
      · exact Or.inr (Or.inl h')
      · exact Or.inr (Or.inr ⟨a, b, rfl, ha, hb, hsuf.trans (List.suffix_cons _ _), hpre⟩)

/-! ### `replaceAll` removes every occurrence of a pattern

`sufPrefTransfer` is the key auxiliary invariant: under the separation
conditions between the pattern `p` and a replacement string `r`, any
non-empty suffix of `p` that is a prefix of `replaceAll q r s` was already a
prefix of `s`.  `replaceAllRemoves` then shows that `replaceAll q r`
leaves no occurrence of `p` behind: for `p = q` this says all occurrences
are replaced; for `p ≠ q` it says the rewrite introduces no new occurrence
of `p` into a text that had none. -/

theorem sufPrefTransfer {p r : Str} (hr : r ≠ []) (hlit : noSubB r = true)
    (hA1 : ∀ t, t <:+ p → t ≠ [] → ¬ t <+: r)
    (hA2 : ¬ ∃ x y, x ≠ [] ∧ y ≠ [] ∧ p = x ++ r ++ y)
    (hA3 : ∀ a, a <:+ r → a ≠ [] → ¬ a <+: p) (q : Str) :
    ∀ (n : Nat) (s : Str), s.length ≤ n →
      ∀ t, t <:+ p → t ≠ [] → t <+: replaceAll q r s → t <+: s := by
  intro n
  induction n with
  | zero =>
    intro s hs t _ htne hpre
    have : s = [] := List.length_eq_zero.mp (Nat.le_zero.mp hs)
    subst this
    rw [replaceAll_nil] at hpre
    exact absurd (List.prefix_nil.mp hpre) htne
  | succ n ih =>
    intro s hs t hsuf htne hpre
    cases s with
    | nil =>
      rw [replaceAll_nil] at hpre
      exact absurd (List.prefix_nil.mp hpre) htne
    | cons c rest =>
      by_cases hq : q = []
      · subst hq; simpa [replaceAll] using hpre
      by_cases hm : q <+: (c :: rest)
      · rw [replaceAll_cons_pos r hq hlit hm] at hpre
        exfalso
        rcases prefix_append_cases hpre with hr1 | ⟨w, rfl, hw⟩
        · exact hA1 t hsuf htne hr1
        · rcases eq_or_ne w [] with rfl | hwne
          · exact hA1 (r ++ []) hsuf htne (by simp [List.prefix_refl])
          · obtain ⟨u, hu⟩ := hsuf
            rcases eq_or_ne u [] with rfl | hune
            · -- p = r ++ w : the whole replacement is a prefix of p
              exact hA3 r (List.suffix_refl r) hr ⟨w, by simpa using hu⟩
            · exact hA2 ⟨u, w, hune, hwne, by rw [← hu, List.append_assoc]⟩
      · rw [replaceAll_cons_neg r hq hlit hm] at hpre
        rcases List.prefix_cons_iff.mp hpre with rfl | ⟨t', rfl, ht'⟩
        · exact absurd rfl htne
        · rcases eq_or_ne t' [] with rfl | htne'
          · exact List.cons_prefix_cons.mpr ⟨rfl, List.nil_prefix⟩
          · have hsuf' : t' <:+ p := by
              obtain ⟨u, hu⟩ := hsuf
              exact ⟨u ++ [c], by simpa using hu⟩
            have := ih rest (Nat.le_of_succ_le_succ hs) t' hsuf' htne' ht'
            exact List.cons_prefix_cons.mpr ⟨rfl, this⟩

theorem replaceAllRemoves {p q r : Str} (hp : p ≠ []) (hq : q ≠ []) (hr : r ≠ [])
    (hlit : noSubB r = true) (hB1 : ¬ p <:+: r)
    (hA1 : ∀ t, t <:+ p → t ≠ [] → ¬ t <+: r)
    (hA2 : ¬ ∃ x y, x ≠ [] ∧ y ≠ [] ∧ p = x ++ r ++ y)
    (hA3 : ∀ a, a <:+ r → a ≠ [] → ¬ a <+: p) :
    ∀ (n : Nat) (s : Str), s.length ≤ n → (p ≠ q → ¬ p <:+: s) →
      ¬ p <:+: replaceAll q r s := by
  intro n
  induction n with
  | zero =>
    intro s hs _ hinf
    have : s = [] := List.length_eq_zero.mp (Nat.le_zero.mp hs)
    subst this
    rw [replaceAll_nil] at hinf
    exact hp (List.infix_nil.mp hinf)
  | succ n ih =>
    intro s hs hsrc hinf
    cases s with
    | nil =>
      rw [replaceAll_nil] at hinf
      exact hp (List.infix_nil.mp hinf)
    | cons c rest =>
      by_cases hm : q <+: (c :: rest)
      · rw [replaceAll_cons_pos r hq hlit hm] at hinf
        rcases infix_append_cases hinf with h1 | h2 | ⟨a, b, rfl, ha, hb, hasuf, -⟩
        · exact hB1 h1
        · have hlen : ((c :: rest).drop q.length).length ≤ n := by
            have h1 : ((c :: rest).drop q.length).length = (c :: rest).length - q.length := by
              simp
            have h2 : 0 < q.length := List.length_pos.mpr hq
            have h3 : (c :: rest).length - q.length < (c :: rest).length :=
              Nat.sub_lt (by simp) h2
            omega
          refine ih _ hlen (fun hne => ?_) h2
          intro hinf'
          exact hsrc hne (hinf'.trans (infixOfSuf (List.drop_suffix _ _)))
        · exact hA3 a hasuf ha (List.prefix_append a b)
      · rw [replaceAll_cons_neg r hq hlit hm] at hinf
        rcases List.infix_cons_iff.mp hinf with hpre | hrest
        · rcases List.prefix_cons_iff.mp hpre with rfl | ⟨p', rfl, hp'⟩
          · exact hp rfl
          · rcases eq_or_ne p' [] with rfl | hpne'
            · -- p = [c] is a prefix of s itself
              rcases eq_or_ne (c :: ([] : Str)) q with hpq | hpq
              · exact hm (by rw [← hpq]; exact List.cons_prefix_cons.mpr ⟨rfl, List.nil_prefix⟩)
              · exact hsrc hpq (infixOfPre (List.cons_prefix_cons.mpr ⟨rfl, List.nil_prefix⟩))
            · have ht' : p' <+: rest :=
                sufPrefTransfer hr hlit hA1 hA2 hA3 q n rest (Nat.le_of_succ_le_succ hs) p'
                  ⟨[c], rfl⟩ hpne' hp'
              have hps : (c :: p') <+: (c :: rest) := List.cons_prefix_cons.mpr ⟨rfl, ht'⟩
              rcases eq_or_ne (c :: p') q with hpq | hpq
              · exact hm (hpq ▸ hps)
              · exact hsrc hpq (infixOfPre hps)
        · refine ih rest (Nat.le_of_succ_le_succ hs) (fun hne hinf' => ?_) hrest
          exact hsrc hne (List.infix_cons hinf')

/-- Separation conditions between a pattern `p` and a replacement string
`r`: the replacement is non-empty, does not contain the pattern, no
non-empty suffix of the pattern is a prefix of the replacement (so a
pattern occurrence cannot end inside a copy of the replacement), no
non-empty suffix of the replacement is a prefix of the pattern (so a
pattern occurrence cannot start inside a copy of the replacement), and the
pattern does not contain the replacement strictly in its interior;
finally, the replacement contains no GetSubstitution dollar escape, so it
expands literally at every match.  All six conditions are decidable for
concrete strings. -/
def SepCond (p r : Str) : Prop :=
  r ≠ [] ∧ ¬ p <:+: r ∧
  (∀ t ∈ p.tails, t ≠ [] → ¬ t <+: r) ∧
  (∀ a ∈ r.tails, a ≠ [] → ¬ a <+: p) ∧
  (∀ i ∈ List.range p.length, ¬ (0 < i ∧ i + r.length < p.length ∧ r <+: p.drop i)) ∧
  noSubB r = true

instance sepCondDecidable (p r : Str) : Decidable (SepCond p r) := by
  unfold SepCond
  exact inferInstance

theorem SepCond.noInterior {p r : Str} (h : SepCond p r) :
    ¬ ∃ x y, x ≠ [] ∧ y ≠ [] ∧ p = x ++ r ++ y := by
  rintro ⟨x, y, hx, hy, rfl⟩
  have hxl : 0 < x.length := List.length_pos.mpr hx
  have hyl : 0 < y.length := List.length_pos.mpr hy
  refine h.2.2.2.2.1 x.length ?_ ⟨hxl, ?_, ?_⟩
  · simp only [List.mem_range, List.length_append]
    omega
  · simp only [List.length_append]
    omega
  · rw [List.append_assoc, List.drop_left]
    exact List.prefix_append r y

/-- Top-level elimination form: under the separation conditions, the result
of `replaceAll q r s` contains no occurrence of `p` — for `p = q`
unconditionally (every occurrence of the pattern is replaced), and for
`p ≠ q` provided `s` contained none. -/
theorem replaceAll_no_occ {p q r : Str} (hp : p ≠ []) (hq : q ≠ []) (hsep : SepCond p r)
    {s : Str} (hs : p ≠ q → ¬ p <:+: s) : ¬ p <:+: replaceAll q r s := by
  have hint := hsep.noInterior
  obtain ⟨hr, hB1, hA1t, hA3t, -, hlit⟩ := hsep
  have hA1 : ∀ t, t <:+ p → t ≠ [] → ¬ t <+: r :=
    fun t ht => hA1t t ((List.mem_tails t p).mpr ht)
  have hA3 : ∀ a, a <:+ r → a ≠ [] → ¬ a <+: p :=
    fun a ha => hA3t a ((List.mem_tails a r).mpr ha)
  exact replaceAllRemoves hp hq hr hlit hB1 hA1 hint hA3 s.length s le_rfl hs

/-! ### Claim C1 -/

/-- Claim C1, counterexample: the single-file pattern `../Icons` is one of
the known rewriter patterns, the text `../Icons ../Icons ../Icons`
contains it three times, yet the output of `fixImports` still contains an
occurrence of it — `replace` only rewrites the first one. -/
theorem c1_counterexample :
    "../Icons".data ∈ rewritePatterns ∧
    occCount "../Icons".data "../Icons ../Icons ../Icons".data = 3 ∧
    occCount "../Icons".data
      (fixImports "../Icons ../Icons ../Icons".data "~/components".data "~/lib".data) ≠ 0 := by
  decide

/-- Claim C1, amended: only the three directory-style patterns
(`../../components`, `../../lib`, `@rnr`) have every occurrence replaced;
this holds for every input text provided the alias strings are separated
from the pattern — the pattern can neither survive inside nor be
recreated around the replacement strings `a`, `b` and
`a ++ "/primitives"`, and those replacement strings carry no
GetSubstitution dollar escape (an alias containing a dollar-ampersand
reinserts the matched pattern in JavaScript). -/
theorem c1_amended_thm (p x a b : Str) (hmem : p ∈ dirPatterns)
    (ha : SepCond p a) (hb : SepCond p b)
    (hprim : SepCond p (a ++ "/primitives".data)) :
    ¬ p <:+: fixImports x a b := by
  simp only [dirPatterns, List.mem_cons, List.not_mem_nil, or_false] at hmem
  rcases hmem with rfl | rfl | rfl
  · unfold fixImports
    apply replaceAll_no_occ (by decide) (by decide) hprim
    intro _
    apply replaceAll_no_occ (by decide) (by decide) hb
    intro _
    apply replaceAll_no_occ (by decide) (by decide) ha
    intro hne
    exact absurd rfl hne
  · unfold fixImports
    apply replaceAll_no_occ (by decide) (by decide) hprim
    intro _
    apply replaceAll_no_occ (by decide) (by decide) hb
    intro hne
    exact absurd rfl hne
  · unfold fixImports
    apply replaceAll_no_occ (by decide) (by decide) hprim
    intro hne
    exact absurd rfl hne

/-- Witness for the amended claim C1 at concrete inputs. -/
theorem c1_amended_witness :
    ¬ "../../components".data <:+:
      fixImports "../../components/ui ../../components/x".data
        "~/components".data "~/lib".data :=
  c1_amended_thm "../../components".data "../../components/ui ../../components/x".data
    "~/components".data "~/lib".data (by decide) (by decide) (by decide) (by decide)

/-! ### Claim C7 -/

/-- Claim C7: once the output of `fixImports` contains no further
occurrence of any rewriter pattern, `fixImports` is idempotent — applying
it again with the same alias pair returns the same text. -/
theorem c7_idempotent (x a b : Str)
    (h : ∀ p ∈ rewritePatterns, ¬ p <:+: fixImports x a b) :
    fixImports (fixImports x a b) a b = fixImports x a b := by
  set y := fixImports x a b with hy
  show fixImports y a b = y
  unfold fixImports
  rw [replaceFirstId _ (h "../Icons".data (by decide)),
      replaceFirstId _ (h "./typography".data (by decide)),
      replaceFirstId _ (h "./text".data (by decide)),
      replaceAllId _ (h "../../components".data (by decide)),
      replaceAllId _ (h "../../lib".data (by decide)),
      replaceAllId _ (h "@rnr".data (by decide))]

/-- Witness for claim C7 at a concrete input with no patterns present. -/
theorem c7_witness :
    (∀ p ∈ rewritePatterns,
        ¬ p <:+: fixImports "hello world".data "~/components".data "~/lib".data) ∧
    fixImports (fixImports "hello world".data "~/components".data "~/lib".data)
        "~/components".data "~/lib".data =
      fixImports "hello world".data "~/components".data "~/lib".data :=
  ⟨by decide, c7_idempotent "hello world".data "~/components".data "~/lib".data (by decide)⟩

/-! ### Claim C9 -/

/-- Claim C9: for each of the three single-file patterns paired with its
replacement in `singleSubs`, `fixImports` rewrites exactly the first
occurrence (the designated one at position `u.length`) and leaves the rest
of the text — including any later occurrence of the same pattern inside
`v` — untouched, provided the other five patterns do not occur and the
replacement template carries no GetSubstitution dollar escape (so it is
inserted literally); matching is plain substring matching, so the
designated occurrence may sit inside a longer path such as `../../Icons`
(witnessed with `u` ending in `../`).  The second conjunct shows plain
substring matching for a `replaceAll` pattern: `../../lib` occurring
inside the longer word `../../library` is rewritten as well. -/
theorem c9_substring_first_only (a b u v : Str) (pr : Str × Str)
    (hmem : pr ∈ singleSubs a) (hlit : noSubB pr.2 = true)
    (hfirst : ∀ i, i < u.length → ¬ pr.1 <+: ((u ++ pr.1 ++ v).drop i))
    (hothers : ∀ q ∈ rewritePatterns, q ≠ pr.1 →
      ¬ q <:+: (u ++ pr.1 ++ v) ∧ ¬ q <:+: (u ++ pr.2 ++ v)) :
    fixImports (u ++ pr.1 ++ v) a b = u ++ pr.2 ++ v ∧
    fixImports "../../library".data "~/c".data "~/l".data = "~/lrary".data := by
  refine ⟨?_, by decide⟩
  obtain ⟨pat, rep⟩ := pr
  simp only [singleSubs, List.mem_cons, List.not_mem_nil, or_false, Prod.mk.injEq] at hmem
  simp only at hlit hfirst hothers ⊢
  rcases hmem with ⟨rfl, rfl⟩ | ⟨rfl, rfl⟩ | ⟨rfl, rfl⟩
  · unfold fixImports
    rw [replaceFirst_first_occ _ (by decide) hlit u hfirst,
        replaceFirstId _ (hothers "./typography".data (by decide) (by decide)).2,
        replaceFirstId _ (hothers "./text".data (by decide) (by decide)).2,
        replaceAllId _ (hothers "../../components".data (by decide) (by decide)).2,
        replaceAllId _ (hothers "../../lib".data (by decide) (by decide)).2,
        replaceAllId _ (hothers "@rnr".data (by decide) (by decide)).2]
  · unfold fixImports
    rw [replaceFirstId _ (hothers "../Icons".data (by decide) (by decide)).1,
        replaceFirst_first_occ _ (by decide) hlit u hfirst,
        replaceFirstId _ (hothers "./text".data (by decide) (by decide)).2,
        replaceAllId _ (hothers "../../components".data (by decide) (by decide)).2,
        replaceAllId _ (hothers "../../lib".data (by decide) (by decide)).2,
        replaceAllId _ (hothers "@rnr".data (by decide) (by decide)).2]
  · unfold fixImports
    rw [replaceFirstId _ (hothers "../Icons".data (by decide) (by decide)).1,
        replaceFirstId _ (hothers "./typography".data (by decide) (by decide)).1,
        replaceFirst_first_occ _ (by decide) hlit u hfirst,
        replaceAllId _ (hothers "../../components".data (by decide) (by decide)).2,
        replaceAllId _ (hothers "../../lib".data (by decide) (by decide)).2,
        replaceAllId _ (hothers "@rnr".data (by decide) (by decide)).2]

/-- Witness for claim C9: the designated `../Icons` occurrence sits inside
the longer path `../../Icons` (no token-boundary awareness) and a later
occurrence of `../Icons` in the tail is left unchanged. -/
theorem c9_witness :
    fixImports ("x (../".data ++ "../Icons".data ++ ") y ../Icons".data)
        "~/c".data "~/l".data =
      "x (../".data ++ ("~/c".data ++ "/Icons".data) ++ ") y ../Icons".data ∧
    fixImports "../../library".data "~/c".data "~/l".data = "~/lrary".data :=
  c9_substring_first_only "~/c".data "~/l".data "x (../".data ") y ../Icons".data
    ("../Icons".data, "~/c".data ++ "/Icons".data) (by decide) (by decide) (by decide)
    (by decide)

/-! ### Node-style path handling

`writeFiles` computes destinations with the Node `path.join`, which
concatenates its segments and then *normalizes* the result, collapsing
`.` and empty segments and resolving `..` segments against the preceding
ones.  The model below implements that segment-level normalization; it is
what makes the frame claim about `resolvedPaths.components` precise,
because a `..` inside a file entry really can escape the components
directory under `path.join`. -/

def isAbs (p : Str) : Bool :=
  match p with
  | c :: _ => c = '/'
  | [] => false

/-- Split a path into its `/`-separated segments. -/
def splitSlash : Str → List Str
  | [] => [[]]
  | c :: rest =>
    if c = '/' then [] :: splitSlash rest
    else
      match splitSlash rest with
      | [] => [[c]]
      | s :: ss => (c :: s) :: ss

/-- One step of Node path normalization; `acc` is the reversed stack of
output segments, `abs` tells whether a leading `..` is dropped (absolute
path) or kept (relative path). -/
def normStep (abs : Bool) (acc : List Str) (seg : Str) : List Str :=
  if seg = [] ∨ seg = ['.'] then acc
  else if seg = ['.', '.'] then
    match acc with
    | [] => if abs then [] else [seg]
    | top :: pre => if top = ['.', '.'] then seg :: acc else pre
  else seg :: acc

def normAcc (abs : Bool) : List Str → List Str → List Str
  | acc, [] => acc
  | acc, s :: ss => normAcc abs (normStep abs acc s) ss

/-- The normalized segment stack of a path (reversed: head = last segment). -/
def stackOf (p : Str) : List Str := normAcc (isAbs p) [] (splitSlash p)

def joinSegs : List Str → Str
  | [] => []
  | [s] => s
  | s :: ss => s ++ '/' :: joinSegs ss

def renderPath (abs : Bool) (st : List Str) : Str :=
  if abs then '/' :: joinSegs st.reverse
  else
    match st with
    | [] => ['.']
    | _ => joinSegs st.reverse

/-- Node `path.normalize`. -/
def normalizeP (p : Str) : Str := renderPath (isAbs p) (stackOf p)

/-- Node `path.join(a, b)`: empty parts are skipped, the rest are joined
with `/` and normalized. -/
def pathJoin (a b : Str) : Str :=
  if a = [] then normalizeP b
  else if b = [] then normalizeP a
  else normalizeP (a ++ '/' :: b)

/-- Node `path.resolve(p)` against the process working directory `cwd`. -/
def resolveP (cwd p : Str) : Str :=
  if isAbs p then normalizeP p else pathJoin cwd p

/-- `p` lies under the directory `root`: same absolute/relative kind and
the normalized segments of `root` are an initial segment of those of `p`
(the stacks are reversed, hence the suffix). -/
def underDir (root p : Str) : Prop :=
  isAbs p = isAbs root ∧ stackOf root <:+ stackOf p

instance underDirDecidable (root p : Str) : Decidable (underDir root p) := by
  unfold underDir
  exact inferInstance

example : pathJoin "/proj/components".data "ui".data = "/proj/components/ui".data := by decide

example : pathJoin "/proj/components".data "..".data = "/proj".data := by decide

example : pathJoin "/proj/components".data "../../etc".data = "/etc".data := by decide

example : underDir "/a/b".data "/a/b/c/d".data := by decide

theorem splitSlash_ne_nil (p : Str) : splitSlash p ≠ [] := by
  induction p with
  | nil => simp [splitSlash]
  | cons c rest ih =>
    by_cases hc : c = '/'
    · simp [splitSlash, hc]
    · simp only [splitSlash, if_neg hc]
      cases hsp : splitSlash rest with
      | nil => simp
      | cons s ss => simp

theorem splitSlash_cons_neg {c : Char} (hc : ¬ c = '/') (rest : Str) {s : Str}
    {ss : List Str} (h : splitSlash rest = s :: ss) :
    splitSlash (c :: rest) = (c :: s) :: ss := by
  unfold splitSlash
  rw [if_neg hc, h]

theorem splitSlash_append (a b : Str) :
    splitSlash (a ++ '/' :: b) = splitSlash a ++ splitSlash b := by
  induction a with
  | nil => simp [splitSlash]
  | cons c a' ih =>
    by_cases hc : c = '/'
    · simp [splitSlash, hc, ih]
    · cases hsp : splitSlash a' with
      | nil => exact absurd hsp (splitSlash_ne_nil a')
      | cons s ss =>
        have h2 : splitSlash (a' ++ '/' :: b) = s :: (ss ++ splitSlash b) := by
          rw [ih, hsp]; rfl
        have hL : (c :: a') ++ '/' :: b = c :: (a' ++ '/' :: b) := rfl
        rw [hL, splitSlash_cons_neg hc _ h2, splitSlash_cons_neg hc _ hsp]
        rfl

theorem normAcc_append (abs : Bool) (acc : List Str) (xs ys : List Str) :
    normAcc abs acc (xs ++ ys) = normAcc abs (normAcc abs acc xs) ys := by
  induction xs generalizing acc with
  | nil => rfl
  | cons s ss ih => simp [normAcc, ih]

theorem normAcc_grow (ys : List Str) :
    ∀ (acc : List Str), (∀ s ∈ ys, s ≠ ['.', '.']) →
      ∃ zs, normAcc true acc ys = zs ++ acc := by
  induction ys with
  | nil => exact fun acc _ => ⟨[], rfl⟩
  | cons s ss ih =>
    intro acc hs
    have hs' : ∀ t ∈ ss, t ≠ ['.', '.'] := fun t ht => hs t (List.mem_cons_of_mem s ht)
    by_cases hdrop : s = [] ∨ s = ['.']
    · obtain ⟨zs, hzs⟩ := ih acc hs'
      exact ⟨zs, by simpa [normAcc, normStep, hdrop] using hzs⟩
    · have hne : s ≠ ['.', '.'] := hs s (List.mem_cons_self s ss)
      obtain ⟨zs, hzs⟩ := ih (s :: acc) hs'
      refine ⟨zs ++ [s], ?_⟩
      rw [show normAcc true acc (s :: ss) = normAcc true (s :: acc) ss by
            simp [normAcc, normStep, hdrop, hne]]
      simpa using hzs

/-- Well-formed segment of a normalized absolute path. -/
def SegOK (s : Str) : Prop :=
  s ≠ [] ∧ ('/' : Char) ∉ s ∧ s ≠ ['.'] ∧ s ≠ ['.', '.']

theorem normStep_wf {acc : List Str} {s : Str} (hacc : ∀ t ∈ acc, SegOK t)
    (hs : ('/' : Char) ∉ s) : ∀ t ∈ normStep true acc s, SegOK t := by
  by_cases hdrop : s = [] ∨ s = ['.']
  · intro t ht
    rw [show normStep true acc s = acc by unfold normStep; rw [if_pos hdrop]] at ht
    exact hacc t ht
  · by_cases hdd : s = ['.', '.']
    · subst hdd
      cases acc with
      | nil => simp [normStep]
      | cons top pre =>
        have htop : SegOK top := hacc top (List.mem_cons_self _ _)
        intro t ht
        rw [show normStep true (top :: pre) ['.', '.'] = pre by
              simp [normStep, htop.2.2.2]] at ht
        exact hacc t (List.mem_cons_of_mem top ht)
    · intro t ht
      rw [show normStep true acc s = s :: acc by
            unfold normStep; rw [if_neg hdrop, if_neg hdd]] at ht
      rcases List.mem_cons.mp ht with rfl | ht'
      · exact ⟨fun h1 => hdrop (Or.inl h1), hs, fun h1 => hdrop (Or.inr h1), hdd⟩
      · exact hacc t ht'

theorem normAcc_wf {segs : List Str} :
    ∀ {acc : List Str}, (∀ t ∈ acc, SegOK t) → (∀ s ∈ segs, ('/' : Char) ∉ s) →
      ∀ t ∈ normAcc true acc segs, SegOK t := by
  induction segs with
  | nil => exact fun hacc _ => hacc
  | cons s ss ih =>
    intro acc hacc hsegs
    exact ih (normStep_wf hacc (hsegs s (List.mem_cons_self _ _)))
      (fun t ht => hsegs t (List.mem_cons_of_mem s ht))

theorem splitSlash_no_slash (p : Str) : ∀ s ∈ splitSlash p, ('/' : Char) ∉ s := by
  induction p with
  | nil => simp [splitSlash]
  | cons c rest ih =>
    by_cases hc : c = '/'
    · simp only [splitSlash, if_pos hc]
      intro s hs
      rcases List.mem_cons.mp hs with rfl | hs'
      · simp
      · exact ih s hs'
    · simp only [splitSlash, if_neg hc]
      cases hsp : splitSlash rest with
      | nil => exact absurd hsp (splitSlash_ne_nil rest)
      | cons t ts =>
        intro s hs
        rcases List.mem_cons.mp hs with rfl | hs'
        · intro hmem
          rcases List.mem_cons.mp hmem with rfl | hmem'
          · exact hc rfl
          · exact (ih t (hsp ▸ List.mem_cons_self t ts)) hmem'
        · exact ih s (hsp ▸ List.mem_cons_of_mem t hs')

theorem splitSlash_of_no_slash {s : Str} (h : ('/' : Char) ∉ s) :
    splitSlash s = [s] := by
  induction s with
  | nil => rfl
  | cons c rest ih =>
    have hc : c ≠ '/' := fun hcc => h (hcc ▸ List.mem_cons_self c rest)
    have hrest : ('/' : Char) ∉ rest := fun hm => h (List.mem_cons_of_mem c hm)
    simp [splitSlash, hc, ih hrest]

theorem splitSlash_joinSegs {l : List Str} (hne : l ≠ [])
    (h : ∀ s ∈ l, ('/' : Char) ∉ s) : splitSlash (joinSegs l) = l := by
  induction l with
  | nil => exact absurd rfl hne
  | cons s ss ih =>
    cases ss with
    | nil => exact splitSlash_of_no_slash (h s (List.mem_cons_self s []))
    | cons t ts =>
      have hjoin : joinSegs (s :: t :: ts) = s ++ '/' :: joinSegs (t :: ts) := rfl
      rw [hjoin, splitSlash_append,
          splitSlash_of_no_slash (h s (List.mem_cons_self _ _)),
          ih (by simp) (fun x hx => h x (List.mem_cons_of_mem s hx))]
      rfl

theorem normAcc_push_all {l : List Str} :
    ∀ {acc : List Str}, (∀ s ∈ l, SegOK s) →
      normAcc true acc l = l.reverse ++ acc := by
  induction l with
  | nil => intro acc _; rfl
  | cons s ss ih =>
    intro acc h
    have hsok : SegOK s := h s (List.mem_cons_self _ _)
    have hstep : normStep true acc s = s :: acc := by
      unfold normStep
      rw [if_neg (by rintro (h1 | h1); exacts [hsok.1 h1, hsok.2.2.1 h1]),
          if_neg hsok.2.2.2]
    rw [show normAcc true acc (s :: ss) = normAcc true (normStep true acc s) ss from rfl,
        hstep, ih (fun x hx => h x (List.mem_cons_of_mem s hx))]
    simp

theorem stackOf_wf {p : Str} (hp : isAbs p = true) : ∀ t ∈ stackOf p, SegOK t := by
  unfold stackOf
  rw [hp]
  exact normAcc_wf (by simp) (splitSlash_no_slash p)

theorem isAbs_renderPath (st : List Str) : isAbs (renderPath true st) = true := rfl

theorem stackOf_renderPath {st : List Str} (h : ∀ t ∈ st, SegOK t) :
    stackOf (renderPath true st) = st := by
  unfold stackOf
  rw [isAbs_renderPath]
  show normAcc true [] (splitSlash ('/' :: joinSegs st.reverse)) = st
  rw [show splitSlash ('/' :: joinSegs st.reverse) = [] :: splitSlash (joinSegs st.reverse) by
        simp [splitSlash]]
  cases hst : st.reverse with
  | nil =>
    have : st = [] := by simpa using congrArg List.reverse hst
    subst this
    rfl
  | cons s ss =>
    have hrev : ∀ x ∈ st.reverse, SegOK x := fun x hx => h x (List.mem_reverse.mp hx)
    rw [← hst]
    rw [splitSlash_joinSegs (by simp [hst]) (fun x hx => (hrev x hx).2.1)]
    rw [show normAcc true [] ([] :: st.reverse) = normAcc true [] st.reverse by
          simp [normAcc, normStep]]
    rw [normAcc_push_all hrev]
    simp

theorem isAbs_normalizeP {p : Str} (hp : isAbs p = true) :
    isAbs (normalizeP p) = true := by
  unfold normalizeP
  rw [hp]
  exact isAbs_renderPath _

theorem stackOf_normalizeP {p : Str} (hp : isAbs p = true) :
    stackOf (normalizeP p) = stackOf p := by
  unfold normalizeP
  rw [hp]
  exact stackOf_renderPath (stackOf_wf hp)

theorem isAbs_append {a : Str} (b : Str) (ha : isAbs a = true) :
    isAbs (a ++ b) = true := by
  cases a with
  | nil => simp [isAbs] at ha
  | cons c rest => simpa [isAbs] using ha

theorem isAbs_pathJoin {a : Str} (b : Str) (ha : isAbs a = true) :
    isAbs (pathJoin a b) = true := by
  have hane : a ≠ [] := by rintro rfl; simp [isAbs] at ha
  unfold pathJoin
  rw [if_neg hane]
  by_cases hb : b = []
  · rw [if_pos hb]; exact isAbs_normalizeP ha
  · rw [if_neg hb]; exact isAbs_normalizeP (isAbs_append _ ha)

theorem stackOf_pathJoin {a : Str} (b : Str) (ha : isAbs a = true) :
    stackOf (pathJoin a b) = normAcc true (stackOf a) (splitSlash b) := by
  have hane : a ≠ [] := by rintro rfl; simp [isAbs] at ha
  unfold pathJoin
  rw [if_neg hane]
  by_cases hb : b = []
  · rw [if_pos hb, stackOf_normalizeP ha, hb]
    show stackOf a = normAcc true (normStep true (stackOf a) []) []
    simp [normStep, normAcc]
  · rw [if_neg hb, stackOf_normalizeP (isAbs_append _ ha)]
    show normAcc (isAbs (a ++ '/' :: b)) [] (splitSlash (a ++ '/' :: b)) = _
    rw [isAbs_append _ ha, splitSlash_append, normAcc_append]
    unfold stackOf
    rw [ha]

/-- The central frame fact: joining a root with a folder and a file that
contain no `..` segments yields a path under the root. -/
theorem pathJoin_underDir {root folder file : Str} (hroot : isAbs root = true)
    (hf : ∀ s ∈ splitSlash folder, s ≠ ['.', '.'])
    (hg : ∀ s ∈ splitSlash file, s ≠ ['.', '.']) :
    underDir root (pathJoin (pathJoin root folder) file) := by
  have habs1 : isAbs (pathJoin root folder) = true := isAbs_pathJoin _ hroot
  have habs2 : isAbs (pathJoin (pathJoin root folder) file) = true := isAbs_pathJoin _ habs1
  refine ⟨by rw [habs2, hroot], ?_⟩
  rw [stackOf_pathJoin _ habs1, stackOf_pathJoin _ hroot]
  obtain ⟨z1, hz1⟩ := normAcc_grow (splitSlash folder) (stackOf root) hf
  obtain ⟨z2, hz2⟩ := normAcc_grow (splitSlash file) (normAcc true (stackOf root) (splitSlash folder)) hg
  rw [hz2, hz1]
  exact ⟨z2 ++ z1, by simp⟩

/-! ### Data model of the add command -/

inductive Platform
  | universal
  | nativeOnly
deriving DecidableEq

/-- A file entry of a component: `{ from, to: { folder, file } }` (the
source field `from` is a reserved word in Lean, hence `fromPath`). -/
structure FileEntry where
  fromPath : Str
  folder : Str
  file : Str
deriving DecidableEq

/-- The `paths` of a component: either a flat list of entries or a mapping
keyed by platform mode. -/
inductive CompPaths
  | flat (entries : List FileEntry)
  | byPlatform (universal nativeOnly : List FileEntry)
deriving DecidableEq

/-- A catalog entry (shape of `Component` from `packages/cli/src/items`).
The `npmPackages` per-platform mapping is kept as two lists. -/
structure Component where
  name : Str
  type : Str
  paths : CompPaths
  dependencies : List Str
  npmUniversal : List Str
  npmNativeOnly : List Str
deriving DecidableEq

/-- The relevant part of the resolved project configuration
(`config.platforms`, `config.aliases.*`, `config.resolvedPaths.components`). -/
structure Config where
  platforms : Platform
  aliasComponents : Str
  aliasLib : Str
  resolvedComponents : Str
deriving DecidableEq

/-- Parsed options of the `add` command (`--path` is never read in the
excerpt and is omitted). -/
structure Options where
  components : Option (List Str)
  overwrite : Bool
  cwd : Str
deriving DecidableEq

/-- Operator-observable events of a run (log lines, prompts, completion). -/
inductive Event
  | errorPathMissing (p : Str)
  | warnNoSelection
  | errorInvalid (names : List Str)
  | errorOther
  | prompted (folder file : Str)
  | skipped (compName : Str)
  | handledError
  | npmLog (pkgs : List Str)
  | done
deriving DecidableEq

/-- World state threaded through a run: the file system (file path →
content), the existing directories, the chronological event log, and the
oracle of operator answers to overwrite prompts, consumed front to back.
An exhausted oracle behaves like `prompts` resolving with no `overwrite`
field, which the code treats as declining. -/
structure St where
  files : Str → Option Str
  dirs : Str → Bool
  events : List Event
  oracle : List Bool

/-! ### The file installer (`writeFiles` in `add.ts`) -/

def destDir (cfg : Config) (e : FileEntry) : Str :=
  pathJoin cfg.resolvedComponents e.folder

def destPath (cfg : Config) (e : FileEntry) : Str :=
  pathJoin (destDir cfg e) e.file

/-- The write branch of the per-entry loop: read the source file
(`fs.readFile(path.resolve(compPath.from), utf8)`, resolved against the
process working directory `procCwd`), rewrite it with `fixImports` using
the configured aliases, and write it to the destination.  A failing read
is routed to `handleError`; `handleError` lives in `utils/handle-error`
outside the excerpt and is modelled from the spec: the failure is
reported per file (an event) and the loop continues with the remaining
entries. -/
def writeContent (procCwd : Str) (cfg : Config) (st : St) (e : FileEntry) : St :=
  match st.files (resolveP procCwd e.fromPath) with
  | none => { st with events := st.events ++ [.handledError] }
  | some content =>
    { st with files := fun q =>
        if q = destPath cfg e then
          some (fixImports content cfg.aliasComponents cfg.aliasLib)
        else st.files q }

/-- Body of the `for (const compPath of paths)` loop of `writeFiles`:
create the destination directory if absent, then — when the destination
file exists and `--overwrite` was not passed — prompt the operator and
skip this entry on decline; otherwise fall through to the write branch. -/
def writeEntry (procCwd compName : Str) (cfg : Config) (overwrite : Bool)
    (st : St) (e : FileEntry) : St :=
  let targetDir := destDir cfg e
  let st1 := if st.dirs targetDir then st
    else { st with dirs := fun d => if d = targetDir then true else st.dirs d }
  if ¬ overwrite ∧ (st1.files (destPath cfg e)).isSome then
    let ans := st1.oracle.headD false
    let st2 := { st1 with events := st1.events ++ [.prompted e.folder e.file],
                          oracle := st1.oracle.tail }
    if ans then writeContent procCwd cfg st2 e
    else { st2 with events := st2.events ++ [.skipped compName] }
  else writeContent procCwd cfg st1 e

/-- `writeFiles(comp, paths, config, options, spinner)`: the sequential
loop over the file entries. -/
def writeFilesM (procCwd compName : Str) (cfg : Config) (overwrite : Bool)
    (entries : List FileEntry) (st : St) : St :=
  entries.foldl (writeEntry procCwd compName cfg overwrite) st

/-! ### The dependency resolver

`COMPONENTS`, `INVALID_COMPONENT_ERROR` and `getAllComponentsToWrite` are
imported from `packages/cli/src/items`, which is not part of the excerpt;
only their use sites in `add.ts` are.  The definitions below are therefore
modelled from the spec (§4.1 Dependency Resolver). -/

/-- The two ways resolution can fail: the fixed `INVALID_COMPONENT_ERROR`
(some requested name is not in the catalog), or any other error — the
catalog invariant of the spec makes a dependency name missing from the catalog
"a resolution error, not a silent skip". -/
inductive ResolveErr
  | invalidComponent
  | missingDependency
deriving DecidableEq

/-- Catalog lookup by name (`COMPONENTS.find((entry) => entry.name === component)`). -/
def lookupComp (cat : List Component) (n : Str) : Option Component :=
  cat.find? (fun c => c.name == n)

/-- Deduplication keeping the first occurrence. -/
def dedupStep (acc : List Str) (n : Str) : List Str :=
  if n ∈ acc then acc else acc ++ [n]

def dedupFirst (l : List Str) : List Str :=
  l.foldl dedupStep []

/-- Declared dependencies of a name, empty when the name is unknown. -/
def depsOf (cat : List Component) (n : Str) : List Str :=
  match lookupComp cat n with
  | some c => c.dependencies
  | none => []

/-- One saturation round: append the not-yet-included dependencies of the
already included names, in order of first appearance. -/
def expandStep (cat : List Component) (ns : List Str) : List Str :=
  ns ++ dedupFirst ((ns.flatMap (depsOf cat)).filter (fun d => ¬ d ∈ ns))

/-- Enough rounds to reach the fixpoint: one more than the number of
names that can ever appear (requested names plus all declared dependency
names). -/
def closureFuel (cat : List Component) (req : List Str) : Nat :=
  req.length + (cat.flatMap (fun c => c.dependencies)).length + 1

def closureNames (cat : List Component) (req : List Str) : List Str :=
  (expandStep cat)^[closureFuel cat req] (dedupFirst req)

/-- Map each resolved name back to its catalog entry; `none` as soon as
one name is missing. -/
def lookupAll (cat : List Component) : List Str → Option (List Component)
  | [] => some []
  | n :: ns =>
    match lookupComp cat n, lookupAll cat ns with
    | some c, some cs => some (c :: cs)
    | _, _ => none

/-- Modelled from the spec: `getAllComponentsToWrite(selectedComponents)`
from `packages/cli/src/items` (not in the excerpt).  It validates that
every requested name exists in the catalog — throwing the fixed
`INVALID_COMPONENT_ERROR` if any does not — and otherwise returns the
deduplicated transitive dependency closure of the requested components,
in a stable order (each requested component followed by its not yet
included dependencies, round by round), tolerating dependency cycles.  A
dependency name absent from the catalog is a (different) resolution
error per the catalog invariant of the spec. -/
def getAllComponentsToWrite (cat : List Component) (req : List Str) :
    Except ResolveErr (List Component) :=
  if (req.filter (fun n => (lookupComp cat n).isNone)) ≠ [] then
    .error .invalidComponent
  else
    match lookupAll cat (closureNames cat req) with
    | some comps => .ok comps
    | none => .error .missingDependency

/-! ### The `add` command action -/

/-- Platform-dependent selection of the file entries of a component
(`comp.paths` is used directly when it is an array, otherwise indexed by
`config.platforms`, universal versus native-only). -/
def selectEntries (cfg : Config) (c : Component) : List FileEntry :=
  match c.paths with
  | .flat es => es
  | .byPlatform u n =>
    match cfg.platforms with
    | .universal => u
    | .nativeOnly => n

/-- The npm package list logged for a component. -/
def npmFor (cfg : Config) (c : Component) : List Str :=
  match cfg.platforms with
  | .universal => c.npmUniversal
  | .nativeOnly => c.npmNativeOnly

/-- One iteration of the install loop: write the platform-selected file
entries, then log the npm packages of the component (installation of npm
dependencies is a TODO in the source). -/
def installComp (procCwd : Str) (cfg : Config) (opts : Options) (st : St)
    (c : Component) : St :=
  let st1 := writeFilesM procCwd c.name cfg opts.overwrite (selectEntries cfg c) st
  { st1 with events := st1.events ++ [.npmLog (npmFor cfg c)] }

structure AddOut where
  exit : Nat
  st : St

/-- The `.action` body of the `add` command, from the point where the
configuration is available (`getConfig`/`promptForConfig` live partly
outside the excerpt; the run is modelled with the resolved configuration
`cfg` as an input).  `selectOracle` is the component multi-select answer
used when no positional components were given; `procCwd` is the process
working directory used by `path.resolve`. -/
def addRun (cat : List Component) (procCwd : Str) (cfg : Config) (opts : Options)
    (selectOracle : List Str) (st0 : St) : AddOut :=
  let cwdAbs := resolveP procCwd opts.cwd
  if ¬ st0.dirs cwdAbs then
    ⟨1, { st0 with events := st0.events ++ [.errorPathMissing cwdAbs] }⟩
  else
    let selected0 := opts.components.getD []
    let selected := if selected0 = [] then selectOracle else selected0
    if selected = [] then
      ⟨0, { st0 with events := st0.events ++ [.warnNoSelection] }⟩
    else
      match getAllComponentsToWrite cat selected with
      | .error .invalidComponent =>
        ⟨1, { st0 with events := st0.events ++
              [.errorInvalid (selected.filter (fun n => (lookupComp cat n).isNone))] }⟩
      | .error .missingDependency =>
        let st1 : St := { st0 with events := st0.events ++ [Event.errorOther] }
        ⟨0, { st1 with events := st1.events ++ [Event.done] }⟩
      | .ok comps =>
        let st1 : St := comps.foldl (installComp procCwd cfg opts) st0
        ⟨0, { st1 with events := st1.events ++ [Event.done] }⟩

/-! ### Claims C4, C5, C6 — the conflict policy of `writeFiles` -/

/-- Claim C4: a file entry whose destination exists, with overwrite not
forced and the operator declining the prompt, is skipped: the installer
moves on to the remaining entries of the batch with the file system
untouched (only a skip notice is logged and the prompt answer consumed). -/
theorem c4_decline_skips_only_that_file (procCwd compName : Str) (cfg : Config)
    (st : St) (e : FileEntry) (rest : List FileEntry) (ds : List Bool)
    (hex : (st.files (destPath cfg e)).isSome = true)
    (hor : st.oracle = false :: ds) :
    writeFilesM procCwd compName cfg false (e :: rest) st =
      writeFilesM procCwd compName cfg false rest
        (writeEntry procCwd compName cfg false st e) ∧
    (writeEntry procCwd compName cfg false st e).files = st.files ∧
    (writeEntry procCwd compName cfg false st e).events =
      st.events ++ [Event.prompted e.folder e.file, Event.skipped compName] ∧
    (writeEntry procCwd compName cfg false st e).oracle = ds := by
  refine ⟨rfl, ?_, ?_, ?_⟩ <;>
    · unfold writeEntry
      by_cases hd : st.dirs (destDir cfg e) <;> simp [hd, hex, hor]

/-- Helper: without a conflict (destination absent or overwrite forced)
`writeEntry` writes the rewritten content straight away: no prompt event,
no oracle consumption. -/
theorem writeEntry_no_prompt {procCwd compName : Str} {cfg : Config} {ov : Bool}
    {st : St} {e : FileEntry} {content : Str}
    (hread : st.files (resolveP procCwd e.fromPath) = some content)
    (hnc : ¬ (ov = false ∧ (st.files (destPath cfg e)).isSome = true)) :
    (writeEntry procCwd compName cfg ov st e).files (destPath cfg e) =
      some (fixImports content cfg.aliasComponents cfg.aliasLib) ∧
    (writeEntry procCwd compName cfg ov st e).events = st.events ∧
    (writeEntry procCwd compName cfg ov st e).oracle = st.oracle := by
  unfold writeEntry
  cases ov with
  | true =>
    by_cases hd : st.dirs (destDir cfg e) <;> simp [hd, writeContent, hread]
  | false =>
    have hex' : (st.files (destPath cfg e)).isSome = false := by
      cases hfe : (st.files (destPath cfg e)).isSome with
      | true => exact absurd ⟨rfl, hfe⟩ hnc
      | false => rfl
    by_cases hd : st.dirs (destDir cfg e) <;> simp [hd, hex', writeContent, hread]

/-- Helper: with a conflict and the operator consenting, `writeEntry`
writes the rewritten content after logging the prompt. -/
theorem writeEntry_prompt_accept {procCwd compName : Str} {cfg : Config}
    {st : St} {e : FileEntry} {content : Str}
    (hread : st.files (resolveP procCwd e.fromPath) = some content)
    (hex : (st.files (destPath cfg e)).isSome = true)
    (hans : st.oracle.headD false = true) :
    (writeEntry procCwd compName cfg false st e).files (destPath cfg e) =
      some (fixImports content cfg.aliasComponents cfg.aliasLib) ∧
    (writeEntry procCwd compName cfg false st e).events =
      st.events ++ [Event.prompted e.folder e.file] := by
  rw [List.headD_eq_head?_getD] at hans
  unfold writeEntry
  by_cases hd : st.dirs (destDir cfg e) <;> simp [hd, hex, hans, writeContent, hread]

/-- Claim C5: the overwrite prompt is shown if and only if the destination
file exists and the overwrite flag is false.  In every other case the file
is written immediately — nothing is logged, the oracle is untouched, and
the destination receives the rewritten source content regardless of the
overwrite flag; in the conflict case a prompt event is logged. -/
theorem c5_prompt_iff (procCwd compName : Str) (cfg : Config) (ov : Bool)
    (st : St) (e : FileEntry) (content : Str)
    (hread : st.files (resolveP procCwd e.fromPath) = some content) :
    (¬ (ov = false ∧ (st.files (destPath cfg e)).isSome = true) →
       (writeEntry procCwd compName cfg ov st e).files (destPath cfg e) =
         some (fixImports content cfg.aliasComponents cfg.aliasLib) ∧
       (writeEntry procCwd compName cfg ov st e).events = st.events ∧
       (writeEntry procCwd compName cfg ov st e).oracle = st.oracle) ∧
    ((ov = false ∧ (st.files (destPath cfg e)).isSome = true) →
       ∃ l, (writeEntry procCwd compName cfg ov st e).events =
         st.events ++ Event.prompted e.folder e.file :: l) := by
  constructor
  · exact fun hnc => writeEntry_no_prompt hread hnc
  · rintro ⟨rfl, hex⟩
    by_cases hans : st.oracle.headD false = true
    · exact ⟨[], by simpa using (writeEntry_prompt_accept hread hex hans).2⟩
    · refine ⟨[Event.skipped compName], ?_⟩
      have hans' : st.oracle.head?.getD false = false := by
        rw [List.headD_eq_head?_getD] at hans
        cases h : st.oracle.head?.getD false with
        | true => exact absurd h hans
        | false => rfl
      unfold writeEntry
      by_cases hd : st.dirs (destDir cfg e) <;> simp [hd, hex, hans', writeContent, hread]

/-- Claim C6: whenever an entry is actually installed — forced by
`--overwrite`, written to a fresh destination, or consented to at the
prompt — the destination receives exactly
`fixImports(sourceContent, aliases.components, aliases.lib)`, replacing
any previous content. -/
theorem c6_installed_content (procCwd compName : Str) (cfg : Config) (ov : Bool)
    (st : St) (e : FileEntry) (content : Str)
    (hread : st.files (resolveP procCwd e.fromPath) = some content)
    (hconsent : ov = true ∨ st.files (destPath cfg e) = none ∨
      st.oracle.headD false = true) :
    (writeEntry procCwd compName cfg ov st e).files (destPath cfg e) =
      some (fixImports content cfg.aliasComponents cfg.aliasLib) := by
  by_cases hc : ov = false ∧ (st.files (destPath cfg e)).isSome = true
  · rcases hconsent with hov | hnone | hans
    · rw [hov] at hc; exact absurd hc.1 (by simp)
    · rw [hnone] at hc; exact absurd hc.2 (by simp)
    · obtain ⟨rfl, hex⟩ := hc
      exact (writeEntry_prompt_accept hread hex hans).1
  · exact (writeEntry_no_prompt hread hc).1

/-! Shared concrete fixtures for the installer witnesses. -/

def cfgW : Config :=
  { platforms := .universal, aliasComponents := "~/components".data,
    aliasLib := "~/lib".data, resolvedComponents := "/proj/components".data }

def eW : FileEntry :=
  { fromPath := "src/ui/dialog.tsx".data, folder := "ui".data, file := "dialog.tsx".data }

def srcKeyW : Str := resolveP "/cli".data "src/ui/dialog.tsx".data

/-- A world where the source file and the destination file both exist and
the operator would answer "no" to a prompt. -/
def stW : St :=
  { files := fun q =>
      if q = srcKeyW then some "x ../../lib y".data
      else if q = destPath cfgW eW then some "old".data else none,
    dirs := fun _ => true, events := [], oracle := [false] }

/-- A world where the source file exists and the destination does not. -/
def stW2 : St :=
  { files := fun q => if q = srcKeyW then some "x ../../lib y".data else none,
    dirs := fun _ => true, events := [], oracle := [] }

/-- Witness for claim C4 at the concrete fixtures. -/
theorem c4_witness :
    writeFilesM "/cli".data "dialog".data cfgW false (eW :: []) stW =
      writeFilesM "/cli".data "dialog".data cfgW false []
        (writeEntry "/cli".data "dialog".data cfgW false stW eW) ∧
    (writeEntry "/cli".data "dialog".data cfgW false stW eW).files = stW.files ∧
    (writeEntry "/cli".data "dialog".data cfgW false stW eW).events =
      stW.events ++ [Event.prompted eW.folder eW.file, Event.skipped "dialog".data] ∧
    (writeEntry "/cli".data "dialog".data cfgW false stW eW).oracle = [] :=
  c4_decline_skips_only_that_file "/cli".data "dialog".data cfgW stW eW [] []
    (by decide) rfl

/-- Witness for claim C5 at the concrete fixtures. -/
theorem c5_witness :
    (¬ (true = false ∧ (stW.files (destPath cfgW eW)).isSome = true) →
       (writeEntry "/cli".data "dialog".data cfgW true stW eW).files (destPath cfgW eW) =
         some (fixImports "x ../../lib y".data cfgW.aliasComponents cfgW.aliasLib) ∧
       (writeEntry "/cli".data "dialog".data cfgW true stW eW).events = stW.events ∧
       (writeEntry "/cli".data "dialog".data cfgW true stW eW).oracle = stW.oracle) ∧
    ((true = false ∧ (stW.files (destPath cfgW eW)).isSome = true) →
       ∃ l, (writeEntry "/cli".data "dialog".data cfgW true stW eW).events =
         stW.events ++ Event.prompted eW.folder eW.file :: l) :=
  c5_prompt_iff "/cli".data "dialog".data cfgW true stW eW "x ../../lib y".data (by decide)

/-- Witness for claim C6 at the concrete fixtures (fresh destination). -/
theorem c6_witness :
    (writeEntry "/cli".data "dialog".data cfgW false stW2 eW).files (destPath cfgW eW) =
      some (fixImports "x ../../lib y".data cfgW.aliasComponents cfgW.aliasLib) :=
  c6_installed_content "/cli".data "dialog".data cfgW false stW2 eW "x ../../lib y".data
    (by decide) (Or.inr (Or.inl (by decide)))

/-! ### Claim C8 — side effects of the installer -/

theorem writeEntry_files_eq (procCwd compName : Str) (cfg : Config) (ov : Bool)
    (st : St) (e : FileEntry) (q : Str) (hq : q ≠ destPath cfg e) :
    (writeEntry procCwd compName cfg ov st e).files q = st.files q := by
  have hwc : ∀ st' : St, st'.files = st.files →
      (writeContent procCwd cfg st' e).files q = st.files q := by
    intro st' hf
    rcases hsrc : st'.files (resolveP procCwd e.fromPath) with _ | content <;>
      simp [writeContent, hsrc, hq, hf]
  unfold writeEntry
  cases ov with
  | true =>
    by_cases hd : st.dirs (destDir cfg e) <;> simp [hd] <;> exact hwc _ rfl
  | false =>
    by_cases hd : st.dirs (destDir cfg e) <;>
      by_cases hex : (st.files (destPath cfg e)).isSome = true <;>
        by_cases hans : st.oracle.head?.getD false = true <;>
          simp [hd, hex, hans] <;> exact hwc _ rfl

theorem writeFilesM_frame (procCwd compName : Str) (cfg : Config) (ov : Bool) :
    ∀ (entries : List FileEntry) (st : St) (q : Str),
      (writeFilesM procCwd compName cfg ov entries st).files q ≠ st.files q →
      ∃ e ∈ entries, q = destPath cfg e := by
  intro entries
  induction entries with
  | nil => intro st q h; exact absurd rfl h
  | cons e rest ih =>
    intro st q h
    by_cases hq : q = destPath cfg e
    · exact ⟨e, List.mem_cons_self _ _, hq⟩
    · have h1 : (writeEntry procCwd compName cfg ov st e).files q = st.files q :=
        writeEntry_files_eq _ _ _ _ _ _ _ hq
      have h2 : (writeFilesM procCwd compName cfg ov rest
          (writeEntry procCwd compName cfg ov st e)).files q ≠
          (writeEntry procCwd compName cfg ov st e).files q := by
        rw [h1]; exact h
      obtain ⟨e', he', hq'⟩ := ih _ q h2
      exact ⟨e', List.mem_cons_of_mem _ he', hq'⟩

/-- Claim C8, counterexample: with a file entry whose folder is `../..`,
the `path.join` normalization of Node makes the installer write `/evil`, a path
that is *not* under `resolvedPaths.components` (`/proj/components`). -/
def eBad : FileEntry :=
  { fromPath := "src/e.tsx".data, folder := "../..".data, file := "evil".data }

def stBad : St :=
  { files := fun q =>
      if q = resolveP "/cli".data "src/e.tsx".data then some "x".data else none,
    dirs := fun _ => true, events := [], oracle := [] }

theorem c8_counterexample :
    (writeFilesM "/cli".data "dialog".data cfgW false [eBad] stBad).files "/evil".data ≠
      stBad.files "/evil".data ∧
    ¬ underDir cfgW.resolvedComponents "/evil".data := by
  constructor
  · decide
  · decide

/-- Claim C8, amended: the installer only ever writes the destination
paths of the entries it was given, and — provided `resolvedPaths.components`
is an absolute path and no entry folder or file contains a `..` segment
(as is the case for catalog entries) — every such path lies under
`resolvedPaths.components`. -/
theorem c8_amended_frame (procCwd compName : Str) (cfg : Config) (ov : Bool)
    (entries : List FileEntry) (st : St)
    (hroot : isAbs cfg.resolvedComponents = true)
    (hent : ∀ e ∈ entries, (∀ s ∈ splitSlash e.folder, s ≠ ['.', '.']) ∧
        (∀ s ∈ splitSlash e.file, s ≠ ['.', '.'])) :
    ∀ q, (writeFilesM procCwd compName cfg ov entries st).files q ≠ st.files q →
      (∃ e ∈ entries, q = destPath cfg e) ∧ underDir cfg.resolvedComponents q := by
  intro q h
  obtain ⟨e, he, rfl⟩ := writeFilesM_frame _ _ _ _ entries st q h
  exact ⟨⟨e, he, rfl⟩, pathJoin_underDir hroot (hent e he).1 (hent e he).2⟩

/-- Witness for the amended claim C8 at the concrete fixtures. -/
theorem c8_witness :
    (∃ e ∈ [eW], destPath cfgW eW = destPath cfgW e) ∧
    underDir cfgW.resolvedComponents (destPath cfgW eW) :=
  c8_amended_frame "/cli".data "dialog".data cfgW false [eW] stW2 (by decide) (by decide)
    (destPath cfgW eW) (by decide)

/-! ### Claim C3 — the resolved set has no duplicates and is closed -/

theorem foldl_dedupStep_nodup :
    ∀ (l : List Str) (acc : List Str), acc.Nodup → (l.foldl dedupStep acc).Nodup := by
  intro l
  induction l with
  | nil => exact fun acc h => h
  | cons n ns ih =>
    intro acc h
    show (ns.foldl dedupStep (dedupStep acc n)).Nodup
    apply ih
    unfold dedupStep
    by_cases hn : n ∈ acc
    · simpa [hn] using h
    · rw [if_neg hn]
      refine h.append (List.nodup_singleton n) ?_
      intro x hx hx'
      rw [List.mem_singleton] at hx'
      subst hx'
      exact hn hx

theorem foldl_dedupStep_mem :
    ∀ (l : List Str) (acc : List Str) (x : Str),
      x ∈ l.foldl dedupStep acc ↔ x ∈ acc ∨ x ∈ l := by
  intro l
  induction l with
  | nil => intro acc x; simp
  | cons n ns ih =>
    intro acc x
    show x ∈ ns.foldl dedupStep (dedupStep acc n) ↔ _
    rw [ih]
    unfold dedupStep
    by_cases hn : n ∈ acc
    · rw [if_pos hn]
      constructor
      · rintro (hx | hx)
        · exact Or.inl hx
        · exact Or.inr (List.mem_cons_of_mem n hx)
      · rintro (hx | hx)
        · exact Or.inl hx
        · rcases List.mem_cons.mp hx with rfl | hx'
          · exact Or.inl hn
          · exact Or.inr hx'
    · rw [if_neg hn]
      simp only [List.mem_append, List.mem_singleton, List.mem_cons]
      tauto

theorem dedupFirst_nodup (l : List Str) : (dedupFirst l).Nodup :=
  foldl_dedupStep_nodup l [] List.nodup_nil

theorem mem_dedupFirst {l : List Str} {x : Str} : x ∈ dedupFirst l ↔ x ∈ l := by
  simpa using foldl_dedupStep_mem l [] x

theorem dedupFirst_eq_nil_iff {l : List Str} : dedupFirst l = [] ↔ l = [] := by
  constructor
  · intro h
    cases l with
    | nil => rfl
    | cons n ns =>
      have : n ∈ dedupFirst (n :: ns) := mem_dedupFirst.mpr (List.mem_cons_self n ns)
      rw [h] at this
      exact absurd this (List.not_mem_nil n)
  · rintro rfl; rfl

theorem expandStep_eq_self_iff (cat : List Component) (ns : List Str) :
    expandStep cat ns = ns ↔ ∀ n ∈ ns, ∀ d ∈ depsOf cat n, d ∈ ns := by
  unfold expandStep
  constructor
  · intro h n hn d hd
    have hlen := congrArg List.length h
    rw [List.length_append] at hlen
    have h0 : (dedupFirst (((ns.flatMap (depsOf cat)).filter (fun d => ¬ d ∈ ns)))).length = 0 := by
      omega
    have hfil : (ns.flatMap (depsOf cat)).filter (fun d => ¬ d ∈ ns) = [] :=
      dedupFirst_eq_nil_iff.mp (List.length_eq_zero.mp h0)
    by_contra hd'
    have hmem : d ∈ (ns.flatMap (depsOf cat)).filter (fun d => ¬ d ∈ ns) := by
      rw [List.mem_filter]
      exact ⟨List.mem_flatMap.mpr ⟨n, hn, hd⟩, by simpa using hd'⟩
    rw [hfil] at hmem
    exact absurd hmem (List.not_mem_nil d)
  · intro h
    have hfil : (ns.flatMap (depsOf cat)).filter (fun d => ¬ d ∈ ns) = [] := by
      rw [List.filter_eq_nil_iff]
      intro d hd
      obtain ⟨n, hn, hdn⟩ := List.mem_flatMap.mp hd
      simpa using h n hn d hdn
    rw [hfil]
    simp [dedupFirst]

theorem expandStep_grow {cat : List Component} {ns : List Str}
    (h : expandStep cat ns ≠ ns) : ns.length < (expandStep cat ns).length := by
  unfold expandStep at h ⊢
  rw [List.length_append]
  rcases Nat.eq_zero_or_pos
      (dedupFirst ((ns.flatMap (depsOf cat)).filter (fun d => ¬ d ∈ ns))).length with h0 | h0
  · exfalso
    apply h
    rw [List.length_eq_zero.mp h0]
    simp
  · omega

theorem expandStep_nodup {cat : List Component} {ns : List Str} (h : ns.Nodup) :
    (expandStep cat ns).Nodup := by
  unfold expandStep
  refine h.append (dedupFirst_nodup _) ?_
  intro x hx hx'
  have := (List.mem_filter.mp (mem_dedupFirst.mp hx')).2
  simp only [decide_eq_true_eq] at this
  exact this hx

theorem expandStep_subset {cat : List Component} {req ns : List Str}
    (h : ∀ x ∈ ns, x ∈ req ++ cat.flatMap (fun c => c.dependencies)) :
    ∀ x ∈ expandStep cat ns, x ∈ req ++ cat.flatMap (fun c => c.dependencies) := by
  intro x hx
  rcases List.mem_append.mp hx with hx | hx
  · exact h x hx
  · have hfil := List.mem_filter.mp (mem_dedupFirst.mp hx)
    obtain ⟨n, -, hdn⟩ := List.mem_flatMap.mp hfil.1
    unfold depsOf at hdn
    rcases hl : lookupComp cat n with _ | c
    · rw [hl] at hdn; exact absurd hdn (List.not_mem_nil x)
    · rw [hl] at hdn
      have hc : c ∈ cat := List.mem_of_find?_eq_some hl
      exact List.mem_append.mpr (Or.inr (List.mem_flatMap.mpr ⟨c, hc, hdn⟩))

theorem nodup_subset_length_le {l U : List Str} (h : l.Nodup) (hs : ∀ x ∈ l, x ∈ U) :
    l.length ≤ U.length := by
  have h1 : l.toFinset.card = l.length := by
    rw [List.card_toFinset, h.dedup]
  have h2 : l.toFinset ⊆ U.toFinset := by
    intro x hx
    rw [List.mem_toFinset] at hx ⊢
    exact hs x hx
  have h3 := Finset.card_le_card h2
  have h4 := List.toFinset_card_le U
  omega

/-- Pigeonhole: a step function on duplicate-free lists over a finite
universe that strictly grows until it reaches a fixpoint does reach its
fixpoint within `U.length + 1` iterations. -/
theorem iterate_fix_of_bounded (f : List Str → List Str) (U : List Str)
    (hnodup : ∀ ns, ns.Nodup → (f ns).Nodup)
    (hU : ∀ ns, (∀ x ∈ ns, x ∈ U) → ∀ x ∈ f ns, x ∈ U)
    (hgrow : ∀ ns, f ns ≠ ns → ns.length < (f ns).length)
    (ns0 : List Str) (h0 : ns0.Nodup) (hs0 : ∀ x ∈ ns0, x ∈ U) :
    f (f^[U.length + 1] ns0) = f^[U.length + 1] ns0 := by
  have hinv : ∀ k, (f^[k] ns0).Nodup ∧ ∀ x ∈ f^[k] ns0, x ∈ U := by
    intro k
    induction k with
    | zero => exact ⟨h0, hs0⟩
    | succ k ih =>
      rw [Function.iterate_succ_apply']
      exact ⟨hnodup _ ih.1, hU _ ih.2⟩
  have hmain : ∀ k, (∃ j, j ≤ k ∧ f (f^[j] ns0) = f^[j] ns0) ∨
      ns0.length + k ≤ (f^[k] ns0).length := by
    intro k
    induction k with
    | zero => exact Or.inr (by simp)
    | succ k ih =>
      rcases ih with ⟨j, hj, hfix⟩ | hlen
      · exact Or.inl ⟨j, Nat.le_succ_of_le hj, hfix⟩
      · by_cases hfx : f (f^[k] ns0) = f^[k] ns0
        · exact Or.inl ⟨k, Nat.le_succ k, hfx⟩
        · refine Or.inr ?_
          rw [Function.iterate_succ_apply']
          have := hgrow _ hfx
          omega
  rcases hmain (U.length + 1) with ⟨j, hj, hfix⟩ | hlen
  · have hstay : f^[U.length + 1] ns0 = f^[j] ns0 := by
      have hsplit : U.length + 1 = (U.length + 1 - j) + j := by omega
      rw [hsplit, Function.iterate_add_apply, Function.iterate_fixed hfix]
    rw [hstay]
    exact hfix
  · exfalso
    have hbound := nodup_subset_length_le (hinv (U.length + 1)).1 (hinv (U.length + 1)).2
    omega

theorem closureNames_fix (cat : List Component) (req : List Str) :
    expandStep cat (closureNames cat req) = closureNames cat req := by
  have hUlen : closureFuel cat req =
      (req ++ cat.flatMap (fun c => c.dependencies)).length + 1 := by
    simp [closureFuel]
  unfold closureNames
  rw [hUlen]
  refine iterate_fix_of_bounded (expandStep cat) _
    (fun ns h => expandStep_nodup h) (fun ns h => expandStep_subset h)
    (fun ns h => expandStep_grow h) (dedupFirst req) (dedupFirst_nodup req) ?_
  intro x hx
  exact List.mem_append.mpr (Or.inl (mem_dedupFirst.mp hx))

theorem closureNames_nodup (cat : List Component) (req : List Str) :
    (closureNames cat req).Nodup := by
  unfold closureNames
  generalize closureFuel cat req = k
  induction k with
  | zero => exact dedupFirst_nodup req
  | succ k ih =>
    rw [Function.iterate_succ_apply']
    exact expandStep_nodup ih

theorem lookupComp_name {cat : List Component} {n : Str} {c : Component}
    (h : lookupComp cat n = some c) : c.name = n := by
  have := List.find?_some h
  simpa using this

theorem lookupAll_names {cat : List Component} :
    ∀ {ns : List Str} {comps : List Component},
      lookupAll cat ns = some comps → comps.map (fun c => c.name) = ns := by
  intro ns
  induction ns with
  | nil =>
    intro comps h
    simp only [lookupAll, Option.some.injEq] at h
    subst h
    rfl
  | cons n ns' ih =>
    intro comps h
    unfold lookupAll at h
    rcases hl : lookupComp cat n with _ | c <;> rw [hl] at h
    · exact absurd h (by simp)
    · rcases hr : lookupAll cat ns' with _ | cs <;> rw [hr] at h
      · exact absurd h (by simp)
      · simp only [Option.some.injEq] at h
        subst h
        simp only [List.map_cons, ih hr, lookupComp_name hl]

theorem lookupAll_mem {cat : List Component} :
    ∀ {ns : List Str} {comps : List Component},
      lookupAll cat ns = some comps → ∀ c ∈ comps, lookupComp cat c.name = some c := by
  intro ns
  induction ns with
  | nil =>
    intro comps h
    simp only [lookupAll, Option.some.injEq] at h
    subst h
    simp
  | cons n ns' ih =>
    intro comps h
    unfold lookupAll at h
    rcases hl : lookupComp cat n with _ | c <;> rw [hl] at h
    · exact absurd h (by simp)
    · rcases hr : lookupAll cat ns' with _ | cs <;> rw [hr] at h
      · exact absurd h (by simp)
      · simp only [Option.some.injEq] at h
        subst h
        intro c' hc'
        rcases List.mem_cons.mp hc' with rfl | hc''
        · rw [lookupComp_name hl]; exact hl
        · exact ih hr c' hc''

/-- Claim C3: a successful resolution returns a component list without
duplicates that is dependency-closed — every declared dependency of every
returned component is itself among the returned names.
(The resolver is modelled from the spec, `packages/cli/src/items` not
being part of the excerpt.) -/
theorem c3_resolved_nodup_closed (cat : List Component) (req : List Str)
    (comps : List Component)
    (h : getAllComponentsToWrite cat req = Except.ok comps) :
    (comps.map (fun c => c.name)).Nodup ∧
    ∀ c ∈ comps, ∀ d ∈ c.dependencies, d ∈ comps.map (fun c => c.name) := by
  unfold getAllComponentsToWrite at h
  by_cases hinv : (req.filter (fun n => (lookupComp cat n).isNone)) ≠ []
  · rw [if_pos hinv] at h
    exact absurd h (by simp)
  · rw [if_neg hinv] at h
    rcases hla : lookupAll cat (closureNames cat req) with _ | comps' <;> rw [hla] at h
    · exact absurd h (by simp)
    · simp only [Except.ok.injEq] at h
      subst h
      have hnames := lookupAll_names hla
      constructor
      · rw [hnames]; exact closureNames_nodup cat req
      · intro c hc d hd
        rw [hnames]
        have hfix := (expandStep_eq_self_iff cat _).mp (closureNames_fix cat req)
        have hcn : c.name ∈ closureNames cat req := by
          rw [← hnames]
          exact List.mem_map.mpr ⟨c, hc, rfl⟩
        have hdeps : depsOf cat c.name = c.dependencies := by
          unfold depsOf
          rw [lookupAll_mem hla c hc]
        exact hfix c.name hcn d (hdeps ▸ hd)

instance exceptDecidableEq {ε α : Type} [DecidableEq ε] [DecidableEq α] :
    DecidableEq (Except ε α)
  | .ok x, .ok y =>
    if h : x = y then .isTrue (congrArg Except.ok h)
    else .isFalse (fun hc => h (Except.ok.inj hc))
  | .error x, .error y =>
    if h : x = y then .isTrue (congrArg Except.error h)
    else .isFalse (fun hc => h (Except.error.inj hc))
  | .ok _, .error _ => .isFalse (fun hc => Except.noConfusion hc)
  | .error _, .ok _ => .isFalse (fun hc => Except.noConfusion hc)

/-! Concrete catalog fixtures for the resolver witnesses. -/

def iconsC : Component :=
  { name := "icons".data, type := "shared".data, paths := .flat [],
    dependencies := [], npmUniversal := [], npmNativeOnly := [] }

def dialogC : Component :=
  { name := "dialog".data, type := "ui".data, paths := .flat [eW],
    dependencies := ["icons".data], npmUniversal := [], npmNativeOnly := [] }

def catW : List Component := [iconsC, dialogC]

/-- Witness for claim C3 at the concrete catalog. -/
theorem c3_witness :
    (([dialogC, iconsC]).map (fun c => c.name)).Nodup ∧
    ∀ c ∈ [dialogC, iconsC], ∀ d ∈ c.dependencies,
      d ∈ ([dialogC, iconsC]).map (fun c => c.name) :=
  c3_resolved_nodup_closed catW ["dialog".data] [dialogC, iconsC] (by decide)

/-! ### Claims C2 and C10 — resolution failures in the `add` action -/

/-- Claim C2: when at least one requested name is missing from the
catalog, the run exits with code 1, the operator-facing report lists
exactly the invalid names (each listed name is a requested-but-unknown
name, and every requested-but-unknown name is listed), and the file
system is untouched — the failure happens before any component file is
written.  (The resolver itself is modelled from the spec,
`packages/cli/src/items` not being part of the excerpt; the reported name
list is the filter computed in `add.ts` itself.) -/
theorem c2_invalid_aborts (cat : List Component) (procCwd : Str) (cfg : Config)
    (opts : Options) (sel : List Str) (st0 : St) (req : List Str)
    (hcomp : opts.components = some req) (hne : req ≠ [])
    (hinv : ∃ n ∈ req, (lookupComp cat n).isNone = true)
    (hcwd : st0.dirs (resolveP procCwd opts.cwd) = true) :
    (addRun cat procCwd cfg opts sel st0).exit = 1 ∧
    (addRun cat procCwd cfg opts sel st0).st.files = st0.files ∧
    (addRun cat procCwd cfg opts sel st0).st.events =
      st0.events ++
        [Event.errorInvalid (req.filter (fun n => (lookupComp cat n).isNone))] ∧
    ∀ n, n ∈ req.filter (fun n => (lookupComp cat n).isNone) ↔
      (n ∈ req ∧ lookupComp cat n = none) := by
  have hfil : req.filter (fun n => (lookupComp cat n).isNone) ≠ [] := by
    obtain ⟨n, hn, hnone⟩ := hinv
    intro hcon
    have hmem : n ∈ req.filter (fun n => (lookupComp cat n).isNone) :=
      List.mem_filter.mpr ⟨hn, hnone⟩
    rw [hcon] at hmem
    exact absurd hmem (List.not_mem_nil n)
  have hres : getAllComponentsToWrite cat req = Except.error ResolveErr.invalidComponent := by
    unfold getAllComponentsToWrite
    rw [if_pos hfil]
  refine ⟨?_, ?_, ?_, ?_⟩
  · unfold addRun
    rw [hcomp]
    simp [hne, hres, hcwd]
  · unfold addRun
    rw [hcomp]
    simp [hne, hres, hcwd]
  · unfold addRun
    rw [hcomp]
    simp [hne, hres, hcwd]
  · intro n
    simp [List.mem_filter, Option.isNone_iff_eq_none]

/-- Witness for claim C2 at the concrete catalog (`ghost` is unknown). -/
theorem c2_witness :
    (addRun catW "/cli".data cfgW
        { components := some ["dialog".data, "ghost".data], overwrite := false,
          cwd := "/proj".data } [] stW2).exit = 1 ∧
    (addRun catW "/cli".data cfgW
        { components := some ["dialog".data, "ghost".data], overwrite := false,
          cwd := "/proj".data } [] stW2).st.files = stW2.files ∧
    (addRun catW "/cli".data cfgW
        { components := some ["dialog".data, "ghost".data], overwrite := false,
          cwd := "/proj".data } [] stW2).st.events =
      stW2.events ++
        [Event.errorInvalid ((["dialog".data, "ghost".data]).filter
          (fun n => (lookupComp catW n).isNone))] ∧
    ∀ n, n ∈ (["dialog".data, "ghost".data]).filter
        (fun n => (lookupComp catW n).isNone) ↔
      (n ∈ ["dialog".data, "ghost".data] ∧ lookupComp catW n = none) :=
  c2_invalid_aborts catW "/cli".data cfgW
    { components := some ["dialog".data, "ghost".data], overwrite := false,
      cwd := "/proj".data } [] stW2 ["dialog".data, "ghost".data]
    rfl (by decide) ⟨"ghost".data, by decide, by decide⟩ (by decide)

/-- Claim C10: when resolution fails with any error other than the
invalid-component error, the `add` action logs the error and does not
abort: it proceeds with the (still empty) components-to-write list,
writes nothing, reports completion and exits with code 0. -/
theorem c10_other_error_continues (cat : List Component) (procCwd : Str)
    (cfg : Config) (opts : Options) (sel : List Str) (st0 : St) (req : List Str)
    (e : ResolveErr)
    (hcomp : opts.components = some req) (hne : req ≠ [])
    (hres : getAllComponentsToWrite cat req = Except.error e)
    (he : e ≠ ResolveErr.invalidComponent)
    (hcwd : st0.dirs (resolveP procCwd opts.cwd) = true) :
    (addRun cat procCwd cfg opts sel st0).exit = 0 ∧
    (addRun cat procCwd cfg opts sel st0).st.files = st0.files ∧
    (addRun cat procCwd cfg opts sel st0).st.events =
      st0.events ++ [Event.errorOther, Event.done] := by
  have he' : e = ResolveErr.missingDependency := by
    cases e with
    | invalidComponent => exact absurd rfl he
    | missingDependency => rfl
  subst he'
  refine ⟨?_, ?_, ?_⟩ <;>
    · unfold addRun
      rw [hcomp]
      simp [hne, hres, hcwd]

def brokenC : Component :=
  { name := "broken".data, type := "ui".data, paths := .flat [],
    dependencies := ["ghost".data], npmUniversal := [], npmNativeOnly := [] }

def catB : List Component := [brokenC]

/-- Witness for claim C10: a catalog whose only entry declares a
dependency that is not in the catalog. -/
theorem c10_witness :
    (addRun catB "/cli".data cfgW
        { components := some ["broken".data], overwrite := false,
          cwd := "/proj".data } [] stW2).exit = 0 ∧
    (addRun catB "/cli".data cfgW
        { components := some ["broken".data], overwrite := false,
          cwd := "/proj".data } [] stW2).st.files = stW2.files ∧
    (addRun catB "/cli".data cfgW
        { components := some ["broken".data], overwrite := false,
          cwd := "/proj".data } [] stW2).st.events =
      stW2.events ++ [Event.errorOther, Event.done] :=
  c10_other_error_continues catB "/cli".data cfgW
    { components := some ["broken".data], overwrite := false, cwd := "/proj".data }
    [] stW2 ["broken".data] ResolveErr.missingDependency rfl (by decide)
    (by decide) (by decide) (by decide)

example : occCount "ab".data "xabab".data = 2 := by decide

example :
    fixImports "../Icons ../Icons ../Icons".data "~/c".data "~/l".data =
      "~/c/Icons ../Icons ../Icons".data := by decide

example :
    fixImports "a ../../lib b ../../lib".data "~/c".data "~/l".data =
      "a ~/l b ~/l".data := by decide

example : replaceFirst "b".data "$&$&".data "abc".data = "abbc".data := by decide

example : replaceAll "@rnr".data "$&x".data "y @rnr z".data = "y @rnrx z".data := by decide

example :
    fixImports "@rnr".data "$&x".data "~/l".data = "@rnrx/primitives".data := by decide

end RnrAdd
